import Mathlib

/-! Shallow embedding of the Shamir secret solver (src/main.cpp): base-string
decoding, fast modular exponentiation and Lagrange interpolation at x = 0.
C++ `long long` and `cpp_int` are modelled as `Int`; the C++ `%` operator
truncates toward zero, which is `Int.tmod`. -/

namespace ShamirSolver

/-- Digit value of one character as computed inside `decodeBaseString`:
`isdigit(ch) ? ch - '0' : tolower(ch) - 'a' + 10`. -/
def charVal (ch : Char) : Int :=
  if ch.isDigit then (ch.toNat : Int) - ('0'.toNat : Int)
  else (ch.toLower.toNat : Int) - ('a'.toNat : Int) + 10

/-- `decodeBaseString`: Horner accumulation `result = result * base + val`
over the characters of `s`, starting from 0. -/
def decodeBaseString (s : String) (base : Int) : Int :=
  s.data.foldl (fun result ch => result * base + charVal ch) 0

/-- Body of the while loop of `modPow`, with fuel bounding the number of
iterations.  The loop is entered only when `0 < exp`, where the C++ `exp & 1`
equals `exp % 2` and `exp >>= 1` is division by two. -/
def modPowGo : Nat → Int → Int → Int → Int → Int
  | 0, result, _, _, _ => result
  | fuel + 1, result, base, exp, m =>
    if 0 < exp then
      modPowGo fuel (if exp % 2 = 1 then (result * base).tmod m else result)
        ((base * base).tmod m) (exp / 2) m
    else result

/-- `modPow`: fast modular exponentiation from the source.  The loop runs at
most `exp.toNat` times, since a positive `exp` at least halves each iteration;
`base %= mod` is performed before the loop. -/
def modPow (base exp m : Int) : Int :=
  modPowGo exp.toNat 1 (base.tmod m) exp m

/-- The i-th point of the input vector, `points[i]`; every use has
`i < pts.length`, so the default is never read. -/
def pointAt (pts : List (Int × Int)) (i : Nat) : Int × Int := pts.getD i (0, 0)

/-- Inner loop accumulating `num = (num * (mod - points[j].first)) % mod`
over `j ≠ i`. -/
def innerNum (pts : List (Int × Int)) (m : Int) (i : Nat) : Int :=
  (List.range pts.length).foldl
    (fun num j => if i = j then num else (num * (m - (pointAt pts j).1)).tmod m) 1

/-- Inner loop accumulating `den = (den * (xi - points[j].first + mod)) % mod`
over `j ≠ i`. -/
def innerDen (pts : List (Int × Int)) (m : Int) (i : Nat) : Int :=
  (List.range pts.length).foldl
    (fun den j =>
      if i = j then den else (den * ((pointAt pts i).1 - (pointAt pts j).1 + m)).tmod m) 1

/-- One iteration of the outer loop of `lagrangeInterpolation`:
`term = ((yi * num) % mod * inv) % mod` with `yi = points[i].second % mod`
and `inv = modPow(den, mod - 2, mod)`. -/
def termAt (pts : List (Int × Int)) (m : Int) (i : Nat) : Int :=
  (((pointAt pts i).2.tmod m * innerNum pts m i).tmod m *
    modPow (innerDen pts m i) (m - 2) m).tmod m

/-- `lagrangeInterpolation`: the outer loop `secret = (secret + term) % mod`
over `i = 0, ..., k-1`. -/
def lagrangeInterpolation (pts : List (Int × Int)) (m : Int) : Int :=
  (List.range pts.length).foldl (fun secret i => (secret + termAt pts m i).tmod m) 0

/-! Basic facts about truncated remainder. -/

/-- Truncated and Euclidean remainder agree modulo `m`. -/
lemma tmod_emod (a m : Int) : a.tmod m % m = a % m := by
  conv_rhs => rw [← Int.tmod_add_tdiv a m]
  simp [Int.add_mul_emod_self_left]

/-- Casting a truncated remainder into `ZMod p` is casting the dividend. -/
lemma intCast_tmod (p : ℕ) (a : Int) : ((a.tmod (p : Int) : Int) : ZMod p) = (a : ZMod p) := by
  rw [ZMod.intCast_eq_intCast_iff']
  exact tmod_emod a p

lemma tmod_nonneg_of_nonneg {a m : Int} (ha : 0 ≤ a) (hm : 0 < m) : 0 ≤ a.tmod m := by
  rw [Int.tmod_eq_emod ha hm.le]
  exact Int.emod_nonneg a hm.ne'

lemma tmod_lt_of_nonneg {a m : Int} (ha : 0 ≤ a) (hm : 0 < m) : a.tmod m < m := by
  rw [Int.tmod_eq_emod ha hm.le]
  exact Int.emod_lt_of_pos a hm

/-! Facts about `modPow`. -/

/-- The image of the `modPow` loop in `ZMod p`, provided the fuel suffices. -/
lemma modPowGo_cast (p : ℕ) :
    ∀ (fuel : ℕ) (r b e : Int), e.toNat ≤ fuel →
      ((modPowGo fuel r b e (p : Int) : Int) : ZMod p) = (r : ZMod p) * (b : ZMod p) ^ e.toNat := by
  intro fuel
  induction fuel with
  | zero =>
    intro r b e he
    have h0 : e.toNat = 0 := Nat.le_zero.mp he
    simp [modPowGo, h0]
  | succ fuel ih =>
    intro r b e he
    by_cases hpos : 0 < e
    · have he2 : (e / 2).toNat ≤ fuel := by omega
      simp only [modPowGo, if_pos hpos]
      rw [ih _ _ _ he2]
      have hsplit : e.toNat = 2 * (e / 2).toNat + (e % 2).toNat := by omega
      by_cases hodd : e % 2 = 1
      · simp only [if_pos hodd, intCast_tmod]
        push_cast
        rw [hsplit, hodd]
        simp only [Int.toNat_one, pow_one]
        ring
      · simp only [if_neg hodd, intCast_tmod]
        have hev : e % 2 = 0 := by omega
        push_cast
        rw [hsplit, hev]
        simp only [Int.toNat_zero, pow_zero, mul_one]
        ring
    · have h0 : e.toNat = 0 := by omega
      simp [modPowGo, if_neg hpos, h0]

/-- The image of `modPow` in `ZMod p`. -/
lemma modPow_cast (p : ℕ) (b e : Int) :
    ((modPow b e (p : Int) : Int) : ZMod p) = (b : ZMod p) ^ e.toNat := by
  unfold modPow
  rw [modPowGo_cast p _ _ _ _ le_rfl, intCast_tmod]
  simp

/-- The `modPow` loop keeps its accumulator inside `[0, m)` for a non-negative base. -/
lemma modPowGo_bounds {m : Int} (hm : 0 < m) :
    ∀ (fuel : ℕ) (r b e : Int), 0 ≤ r → r < m → 0 ≤ b →
      0 ≤ modPowGo fuel r b e m ∧ modPowGo fuel r b e m < m := by
  intro fuel
  induction fuel with
  | zero => intro r b e hr hrm _; simpa [modPowGo] using ⟨hr, hrm⟩
  | succ fuel ih =>
    intro r b e hr hrm hb
    simp only [modPowGo]
    by_cases hpos : 0 < e
    · simp only [if_pos hpos]
      refine ih _ _ _ ?_ ?_ ?_
      · by_cases hodd : e % 2 = 1
        · simpa [hodd] using tmod_nonneg_of_nonneg (mul_nonneg hr hb) hm
        · simpa [hodd] using hr
      · by_cases hodd : e % 2 = 1
        · simpa [hodd] using tmod_lt_of_nonneg (mul_nonneg hr hb) hm
        · simpa [hodd] using hrm
      · exact tmod_nonneg_of_nonneg (mul_nonneg hb hb) hm
    · simp only [if_neg hpos]
      exact ⟨hr, hrm⟩

/-- `modPow` of a non-negative base lies in `[0, m)` whenever `2 ≤ m`. -/
lemma modPow_bounds {b e m : Int} (hm : 2 ≤ m) (hb : 0 ≤ b) :
    0 ≤ modPow b e m ∧ modPow b e m < m := by
  unfold modPow
  exact modPowGo_bounds (by omega) _ 1 _ e (by omega) (by omega)
    (tmod_nonneg_of_nonneg hb (by omega))

/-- The `modPow` loop fixes the accumulator `1` when the base is `1`. -/
lemma modPowGo_one {m : Int} (hm : 2 ≤ m) :
    ∀ (fuel : ℕ) (e : Int), modPowGo fuel 1 1 e m = 1 := by
  have h1 : Int.tmod 1 m = 1 := by
    rw [Int.tmod_eq_emod (by omega) (by omega)]
    exact Int.emod_eq_of_lt (by omega) (by omega)
  intro fuel
  induction fuel with
  | zero => intro e; simp [modPowGo]
  | succ fuel ih =>
    intro e
    simp only [modPowGo]
    by_cases hpos : 0 < e
    · simp only [if_pos hpos, mul_one, h1]
      split
      · exact ih _
      · exact ih _
    · simp [if_neg hpos]

/-- `modPow 1 e m = 1` for any exponent when `2 ≤ m`. -/
lemma modPow_one {e m : Int} (hm : 2 ≤ m) : modPow 1 e m = 1 := by
  unfold modPow
  have h1 : Int.tmod 1 m = 1 := by
    rw [Int.tmod_eq_emod (by omega) (by omega)]
    exact Int.emod_eq_of_lt (by omega) (by omega)
  rw [h1]
  exact modPowGo_one hm _ _

/-- The `modPow` loop with zero accumulator and zero base stays at zero. -/
lemma modPowGo_zero_zero (m : Int) :
    ∀ (fuel : ℕ) (e : Int), modPowGo fuel 0 0 e m = 0 := by
  intro fuel
  induction fuel with
  | zero => intro e; simp [modPowGo]
  | succ fuel ih =>
    intro e
    simp only [modPowGo]
    by_cases hpos : 0 < e
    · simp only [if_pos hpos, mul_zero, zero_mul, Int.zero_tmod]
      split
      · exact ih _
      · exact ih _
    · simp [if_neg hpos]

/-- With zero base and positive exponent the `modPow` loop returns zero. -/
lemma modPowGo_zero_base (m : Int) :
    ∀ (fuel : ℕ) (r e : Int), e.toNat ≤ fuel → 0 < e → modPowGo fuel r 0 e m = 0 := by
  intro fuel
  induction fuel with
  | zero => intro r e he hpos; omega
  | succ fuel ih =>
    intro r e he hpos
    simp only [modPowGo, if_pos hpos, mul_zero, zero_mul, Int.zero_tmod]
    by_cases hodd : e % 2 = 1
    · simp only [if_pos hodd, Int.zero_tmod]
      exact modPowGo_zero_zero m fuel _
    · simp only [if_neg hodd]
      exact ih _ _ (by omega) (by omega)

/-- `modPow 0 e m = 0` for a positive exponent. -/
lemma modPow_zero_of_pos {e m : Int} (he : 0 < e) : modPow 0 e m = 0 := by
  unfold modPow
  rw [Int.zero_tmod]
  exact modPowGo_zero_base m _ 1 e le_rfl he

/-! Folds with a skipped index, reduced after each step, seen in `ZMod p`. -/

lemma range_toFinset (n : ℕ) : (List.range n).toFinset = Finset.range n := by
  ext x
  simp

/-- Image in `ZMod p` of a product-accumulating fold that skips index `i`. -/
lemma cast_foldl_mul (p : ℕ) (w : ℕ → Int) (i : ℕ) :
    ∀ (l : List ℕ), l.Nodup → ∀ (a : Int),
      ((l.foldl (fun n j => if i = j then n else (n * w j).tmod (p : Int)) a : Int) : ZMod p)
        = (a : ZMod p) * ∏ j ∈ l.toFinset.erase i, ((w j : Int) : ZMod p) := by
  intro l
  induction l with
  | nil => intro _ a; simp
  | cons c l ih =>
    intro hnd a
    obtain ⟨hc, hnd'⟩ := List.nodup_cons.mp hnd
    by_cases hic : i = c
    · subst hic
      simp only [List.foldl_cons, eq_self_iff_true, if_true]
      rw [ih hnd' a, List.toFinset_cons,
        Finset.erase_insert (by simpa using hc),
        Finset.erase_eq_of_not_mem (by simpa using hc)]
    · simp only [List.foldl_cons, if_neg hic]
      rw [ih hnd' _, List.toFinset_cons, Finset.erase_insert_of_ne (Ne.symm hic),
        Finset.prod_insert (fun hmem => hc (by simpa using Finset.mem_of_mem_erase hmem)),
        intCast_tmod]
      push_cast
      ring

/-- Image in `ZMod p` of the sum-accumulating fold. -/
lemma cast_foldl_add (p : ℕ) (t : ℕ → Int) :
    ∀ (l : List ℕ), l.Nodup → ∀ (a : Int),
      ((l.foldl (fun s j => (s + t j).tmod (p : Int)) a : Int) : ZMod p)
        = (a : ZMod p) + ∑ j ∈ l.toFinset, ((t j : Int) : ZMod p) := by
  intro l
  induction l with
  | nil => intro _ a; simp
  | cons c l ih =>
    intro hnd a
    obtain ⟨hc, hnd'⟩ := List.nodup_cons.mp hnd
    simp only [List.foldl_cons]
    rw [ih hnd' _, List.toFinset_cons,
      Finset.sum_insert (by simpa using hc), intCast_tmod]
    push_cast
    ring

/-- The skipping product fold stays inside `[0, m)` for non-negative factors. -/
lemma foldl_mul_bounds {m : Int} (hm : 0 < m) (w : ℕ → Int) (i : ℕ) (hw : ∀ j, 0 ≤ w j) :
    ∀ (l : List ℕ) (a : Int), 0 ≤ a → a < m →
      0 ≤ l.foldl (fun n j => if i = j then n else (n * w j).tmod m) a ∧
        l.foldl (fun n j => if i = j then n else (n * w j).tmod m) a < m := by
  intro l
  induction l with
  | nil => intro a ha ham; exact ⟨ha, ham⟩
  | cons c l ih =>
    intro a ha ham
    simp only [List.foldl_cons]
    by_cases hic : i = c
    · simp only [if_pos hic]
      exact ih a ha ham
    · simp only [if_neg hic]
      exact ih _ (tmod_nonneg_of_nonneg (mul_nonneg ha (hw c)) hm)
        (tmod_lt_of_nonneg (mul_nonneg ha (hw c)) hm)

/-- The sum fold stays inside `[0, m)` for non-negative terms. -/
lemma foldl_add_bounds {m : Int} (hm : 0 < m) (t : ℕ → Int) (ht : ∀ j, 0 ≤ t j) :
    ∀ (l : List ℕ) (a : Int), 0 ≤ a → a < m →
      0 ≤ l.foldl (fun s j => (s + t j).tmod m) a ∧
        l.foldl (fun s j => (s + t j).tmod m) a < m := by
  intro l
  induction l with
  | nil => intro a ha ham; exact ⟨ha, ham⟩
  | cons c l ih =>
    intro a ha ham
    simp only [List.foldl_cons]
    exact ih _ (tmod_nonneg_of_nonneg (add_nonneg ha (ht c)) hm)
      (tmod_lt_of_nonneg (add_nonneg ha (ht c)) hm)

/-! Coordinate bounds and ranges of the interpolation loops. -/

lemma pointAt_mem {pts : List (Int × Int)} {i : ℕ} (h : i < pts.length) :
    pointAt pts i ∈ pts := by
  unfold pointAt
  rw [List.getD_eq_getElem _ _ h]
  exact List.getElem_mem h

lemma pointAt_x_bounds {m : Int} {pts : List (Int × Int)} (hm : 0 ≤ m)
    (hx : ∀ pt ∈ pts, 0 ≤ pt.1 ∧ pt.1 ≤ m) (i : ℕ) :
    0 ≤ (pointAt pts i).1 ∧ (pointAt pts i).1 ≤ m := by
  by_cases h : i < pts.length
  · exact hx _ (pointAt_mem h)
  · rw [pointAt, List.getD_eq_default _ _ (le_of_not_lt h)]
    exact ⟨le_rfl, hm⟩

lemma pointAt_y_nonneg {pts : List (Int × Int)} (hy : ∀ pt ∈ pts, 0 ≤ pt.2) (i : ℕ) :
    0 ≤ (pointAt pts i).2 := by
  by_cases h : i < pts.length
  · exact hy _ (pointAt_mem h)
  · rw [pointAt, List.getD_eq_default _ _ (le_of_not_lt h)]

lemma innerNum_bounds {m : Int} {pts : List (Int × Int)} {i : ℕ} (hm : 2 ≤ m)
    (hx : ∀ pt ∈ pts, 0 ≤ pt.1 ∧ pt.1 ≤ m) :
    0 ≤ innerNum pts m i ∧ innerNum pts m i < m := by
  unfold innerNum
  exact foldl_mul_bounds (by omega) _ i
    (fun j => by have := pointAt_x_bounds (by omega) hx j; omega)
    _ 1 (by omega) (by omega)

lemma innerDen_bounds {m : Int} {pts : List (Int × Int)} {i : ℕ} (hm : 2 ≤ m)
    (hx : ∀ pt ∈ pts, 0 ≤ pt.1 ∧ pt.1 ≤ m) :
    0 ≤ innerDen pts m i ∧ innerDen pts m i < m := by
  unfold innerDen
  exact foldl_mul_bounds (by omega) _ i
    (fun j => by
      have h1 := pointAt_x_bounds (by omega) hx i
      have h2 := pointAt_x_bounds (by omega) hx j
      omega)
    _ 1 (by omega) (by omega)

lemma termAt_bounds {m : Int} {pts : List (Int × Int)} {i : ℕ} (hm : 2 ≤ m)
    (hx : ∀ pt ∈ pts, 0 ≤ pt.1 ∧ pt.1 ≤ m) (hy : ∀ pt ∈ pts, 0 ≤ pt.2) :
    0 ≤ termAt pts m i ∧ termAt pts m i < m := by
  unfold termAt
  have hyi : 0 ≤ (pointAt pts i).2.tmod m :=
    tmod_nonneg_of_nonneg (pointAt_y_nonneg hy i) (by omega)
  have hnum := innerNum_bounds (i := i) hm hx
  have hden := innerDen_bounds (i := i) hm hx
  have hinv := modPow_bounds (e := m - 2) hm hden.1
  have hprod : 0 ≤ ((pointAt pts i).2.tmod m * innerNum pts m i).tmod m :=
    tmod_nonneg_of_nonneg (mul_nonneg hyi hnum.1) (by omega)
  exact ⟨tmod_nonneg_of_nonneg (mul_nonneg hprod hinv.1) (by omega),
    tmod_lt_of_nonneg (mul_nonneg hprod hinv.1) (by omega)⟩

/-- The interpolation result lies in `[0, m)` when every `x` is in `[0, m]` and
every `y` is non-negative. -/
lemma lagrangeInterpolation_bounds {m : Int} {pts : List (Int × Int)} (hm : 2 ≤ m)
    (hx : ∀ pt ∈ pts, 0 ≤ pt.1 ∧ pt.1 ≤ m) (hy : ∀ pt ∈ pts, 0 ≤ pt.2) :
    0 ≤ lagrangeInterpolation pts m ∧ lagrangeInterpolation pts m < m := by
  unfold lagrangeInterpolation
  exact foldl_add_bounds (by omega) _ (fun j => (termAt_bounds hm hx hy).1)
    _ 0 (by omega) (by omega)

/-! Images of the loops in `ZMod p`. -/

lemma cast_innerNum (p : ℕ) (pts : List (Int × Int)) (i : ℕ) :
    ((innerNum pts (p : Int) i : Int) : ZMod p)
      = ∏ j ∈ (Finset.range pts.length).erase i, -((pointAt pts j).1 : ZMod p) := by
  unfold innerNum
  rw [cast_foldl_mul p (fun j => (p : Int) - (pointAt pts j).1) i _ (List.nodup_range _) 1,
    range_toFinset, Int.cast_one, one_mul]
  refine Finset.prod_congr rfl fun j _ => ?_
  push_cast
  simp

lemma cast_innerDen (p : ℕ) (pts : List (Int × Int)) (i : ℕ) :
    ((innerDen pts (p : Int) i : Int) : ZMod p)
      = ∏ j ∈ (Finset.range pts.length).erase i,
          (((pointAt pts i).1 : ZMod p) - ((pointAt pts j).1 : ZMod p)) := by
  unfold innerDen
  rw [cast_foldl_mul p (fun j => (pointAt pts i).1 - (pointAt pts j).1 + (p : Int)) i _
    (List.nodup_range _) 1, range_toFinset, Int.cast_one, one_mul]
  refine Finset.prod_congr rfl fun j _ => ?_
  push_cast
  simp

lemma cast_termAt (p : ℕ) (pts : List (Int × Int)) (i : ℕ) :
    ((termAt pts (p : Int) i : Int) : ZMod p)
      = ((pointAt pts i).2 : ZMod p)
          * (∏ j ∈ (Finset.range pts.length).erase i, -((pointAt pts j).1 : ZMod p))
          * (∏ j ∈ (Finset.range pts.length).erase i,
              (((pointAt pts i).1 : ZMod p) - ((pointAt pts j).1 : ZMod p)))
            ^ ((p : Int) - 2).toNat := by
  unfold termAt
  rw [intCast_tmod, Int.cast_mul, intCast_tmod, Int.cast_mul, intCast_tmod, modPow_cast,
    cast_innerNum, cast_innerDen]

/-- The interpolation result seen in `ZMod p`: the Lagrange sum with the Fermat
inverse written as a `(p - 2)`-th power. -/
lemma cast_lagrangeInterpolation (p : ℕ) (pts : List (Int × Int)) :
    ((lagrangeInterpolation pts (p : Int) : Int) : ZMod p)
      = ∑ i ∈ Finset.range pts.length,
          ((pointAt pts i).2 : ZMod p)
            * (∏ j ∈ (Finset.range pts.length).erase i, -((pointAt pts j).1 : ZMod p))
            * (∏ j ∈ (Finset.range pts.length).erase i,
                (((pointAt pts i).1 : ZMod p) - ((pointAt pts j).1 : ZMod p)))
              ^ ((p : Int) - 2).toNat := by
  unfold lagrangeInterpolation
  rw [cast_foldl_add p (fun i => termAt pts (p : Int) i) _ (List.nodup_range _) 0,
    range_toFinset, Int.cast_zero, zero_add]
  exact Finset.sum_congr rfl fun i _ => cast_termAt p pts i

/-! The interpolation sum rewritten over the finite set of points. -/

lemma pointAt_get {pts : List (Int × Int)} {j : ℕ} (h : j < pts.length) :
    pointAt pts j = pts.get ⟨j, h⟩ := by
  unfold pointAt
  rw [List.getD_eq_getElem _ _ h]
  simp [List.get_eq_getElem]

lemma pointAt_inj {pts : List (Int × Int)} (hnd : pts.Nodup) {j1 j2 : ℕ}
    (h1 : j1 < pts.length) (h2 : j2 < pts.length)
    (heq : pointAt pts j1 = pointAt pts j2) : j1 = j2 := by
  rw [pointAt_get h1, pointAt_get h2] at heq
  simpa using hnd.get_inj_iff.mp heq

/-- Transport a product over all indices but `i` to a product over all points
but the `i`-th one. -/
lemma prod_index_erase {M : Type} [CommMonoid M] {pts : List (Int × Int)} (hnd : pts.Nodup)
    {i : ℕ} (hi : i < pts.length) (w : Int × Int → M) :
    ∏ j ∈ (Finset.range pts.length).erase i, w (pointAt pts j)
      = ∏ q ∈ pts.toFinset.erase (pointAt pts i), w q := by
  refine Finset.prod_bij (fun j _ => pointAt pts j) ?_ ?_ ?_ ?_
  · intro j hj
    obtain ⟨hne, hjr⟩ := Finset.mem_erase.mp hj
    have hjl := Finset.mem_range.mp hjr
    exact Finset.mem_erase.mpr
      ⟨fun heq => hne (pointAt_inj hnd hjl hi heq),
        List.mem_toFinset.mpr (pointAt_mem hjl)⟩
  · intro j1 hj1 j2 hj2 heq
    exact pointAt_inj hnd (Finset.mem_range.mp (Finset.mem_erase.mp hj1).2)
      (Finset.mem_range.mp (Finset.mem_erase.mp hj2).2) heq
  · intro q hq
    obtain ⟨hqne, hqmem⟩ := Finset.mem_erase.mp hq
    obtain ⟨⟨j, hj⟩, hget⟩ := List.mem_iff_get.mp (List.mem_toFinset.mp hqmem)
    rw [← pointAt_get hj] at hget
    refine ⟨j, Finset.mem_erase.mpr ⟨?_, Finset.mem_range.mpr hj⟩, hget⟩
    intro hji
    exact hqne (by rw [← hget, hji])
  · intro j hj
    rfl

/-- The interpolation sum as a function of the finite set of points alone. -/
def finsetForm (p : ℕ) (s : Finset (Int × Int)) : ZMod p :=
  ∑ q ∈ s, (q.2 : ZMod p)
    * (∏ r ∈ s.erase q, -(r.1 : ZMod p))
    * (∏ r ∈ s.erase q, ((q.1 : ZMod p) - (r.1 : ZMod p))) ^ ((p : Int) - 2).toNat

/-- For a duplicate-free point list the image of the interpolation in `ZMod p`
depends only on the finite set of points. -/
lemma cast_lagrangeInterpolation_toFinset (p : ℕ) {pts : List (Int × Int)}
    (hnd : pts.Nodup) :
    ((lagrangeInterpolation pts (p : Int) : Int) : ZMod p) = finsetForm p pts.toFinset := by
  rw [cast_lagrangeInterpolation]
  unfold finsetForm
  refine Finset.sum_bij (fun j _ => pointAt pts j) ?_ ?_ ?_ ?_
  · intro j hj
    exact List.mem_toFinset.mpr (pointAt_mem (Finset.mem_range.mp hj))
  · intro j1 hj1 j2 hj2 heq
    exact pointAt_inj hnd (Finset.mem_range.mp hj1) (Finset.mem_range.mp hj2) heq
  · intro q hq
    obtain ⟨⟨j, hj⟩, hget⟩ := List.mem_iff_get.mp (List.mem_toFinset.mp hq)
    rw [← pointAt_get hj] at hget
    exact ⟨j, Finset.mem_range.mpr hj, hget⟩
  · intro j hj
    have hjl := Finset.mem_range.mp hj
    rw [prod_index_erase hnd hjl (fun q => -(q.1 : ZMod p)),
      prod_index_erase hnd hjl (fun q => ((pointAt pts j).1 : ZMod p) - (q.1 : ZMod p))]

/-- Distinct integers in `[0, p)` stay distinct in `ZMod p`. -/
lemma intCast_inj_of_range {p : ℕ} {a b : Int} (ha0 : 0 ≤ a) (hap : a < (p : Int))
    (hb0 : 0 ≤ b) (hbp : b < (p : Int)) (h : (a : ZMod p) = (b : ZMod p)) : a = b := by
  rw [ZMod.intCast_eq_intCast_iff'] at h
  rwa [Int.emod_eq_of_lt ha0 hap, Int.emod_eq_of_lt hb0 hbp] at h

/-- Fermat inverse in `ZMod p`: the `(p-2)`-th power of a non-zero element is
its inverse. -/
lemma pow_card_sub_two {p : ℕ} [Fact p.Prime] {a : ZMod p} (ha : a ≠ 0) :
    a ^ (p - 2) = a⁻¹ := by
  have h2 : 2 ≤ p := (Fact.out : p.Prime).two_le
  have h : a ^ (p - 2) * a = 1 := by
    rw [← pow_succ]
    have hs : p - 2 + 1 = p - 1 := by omega
    rw [hs]
    exact ZMod.pow_card_sub_one_eq_one ha
  exact eq_inv_of_mul_eq_one_left h

/-- The finite-set form of the interpolation recovers the constant coefficient
of any polynomial of degree below the number of points that passes through all
of them. -/
lemma finsetForm_eq_coeff (p : ℕ) [Fact p.Prime] {s : Finset (Int × Int)}
    (hinj : Set.InjOn (fun q : Int × Int => (q.1 : ZMod p)) s)
    {f : Polynomial (ZMod p)} (hdeg : f.degree < s.card)
    (heval : ∀ q ∈ s, (q.2 : ZMod p) = f.eval (q.1 : ZMod p)) :
    finsetForm p s = f.coeff 0 := by
  have h2 : 2 ≤ p := (Fact.out : p.Prime).two_le
  have hE : ((p : Int) - 2).toNat = p - 2 := by omega
  unfold finsetForm
  have hterm : ∀ q ∈ s,
      (q.2 : ZMod p) * (∏ r ∈ s.erase q, -(r.1 : ZMod p))
        * (∏ r ∈ s.erase q, ((q.1 : ZMod p) - (r.1 : ZMod p))) ^ ((p : Int) - 2).toNat
      = f.eval (q.1 : ZMod p)
        * Polynomial.eval 0 (Lagrange.basis s (fun q : Int × Int => (q.1 : ZMod p)) q) := by
    intro q hq
    have hden : (∏ r ∈ s.erase q, ((q.1 : ZMod p) - (r.1 : ZMod p))) ≠ 0 := by
      rw [Finset.prod_ne_zero_iff]
      intro r hr
      have hne : r ≠ q := (Finset.mem_erase.mp hr).1
      have hrs : r ∈ s := Finset.mem_of_mem_erase hr
      exact sub_ne_zero.mpr fun hc => hne (hinj hrs hq hc.symm)
    have hbasis :
        Polynomial.eval 0 (Lagrange.basis s (fun q : Int × Int => (q.1 : ZMod p)) q)
          = (∏ r ∈ s.erase q, -(r.1 : ZMod p))
            * (∏ r ∈ s.erase q, ((q.1 : ZMod p) - (r.1 : ZMod p)))⁻¹ := by
      unfold Lagrange.basis
      rw [Polynomial.eval_prod]
      have hb : ∀ r ∈ s.erase q,
          Polynomial.eval 0 (Lagrange.basisDivisor ((q.1 : ZMod p)) ((r.1 : ZMod p)))
            = ((q.1 : ZMod p) - (r.1 : ZMod p))⁻¹ * -(r.1 : ZMod p) := by
        intro r _
        unfold Lagrange.basisDivisor
        simp
      rw [Finset.prod_congr rfl hb, Finset.prod_mul_distrib, Finset.prod_inv_distrib]
      ring
    rw [hbasis, ← heval q hq, hE, pow_card_sub_two hden]
    ring
  rw [Finset.sum_congr rfl hterm]
  have hsum :
      ∑ q ∈ s, f.eval ((q.1 : ZMod p))
          * Polynomial.eval 0 (Lagrange.basis s (fun q : Int × Int => (q.1 : ZMod p)) q)
        = Polynomial.eval 0 (Lagrange.interpolate s (fun q : Int × Int => (q.1 : ZMod p))
            (fun q => f.eval (q.1 : ZMod p))) := by
    rw [Lagrange.interpolate_apply, Polynomial.eval_finset_sum]
    refine Finset.sum_congr rfl fun q _ => ?_
    rw [Polynomial.eval_mul, Polynomial.eval_C]
  rw [hsum, ← Lagrange.eq_interpolate hinj hdeg]
  exact (Polynomial.coeff_zero_eq_eval_zero f).symm

/-- The Euclidean remainder is a fixed point of the truncated remainder. -/
lemma tmod_emod_self {y m : Int} (hm : 0 < m) : (y % m).tmod m = y % m := by
  rw [Int.tmod_eq_emod (Int.emod_nonneg y hm.ne') hm.le]
  exact Int.emod_emod_of_dvd y dvd_rfl

/-- Horner evaluation of a digit list equals the positional value. -/
lemma horner_sum (base : Int) :
    ∀ (l : List Char) (a : Int),
      l.foldl (fun result ch => result * base + charVal ch) a
        = a * base ^ l.length
          + ∑ i : Fin l.length, charVal (l.get i) * base ^ (l.length - 1 - (i : ℕ)) := by
  intro l
  induction l with
  | nil => intro a; simp
  | cons c l ih =>
    intro a
    simp only [List.foldl_cons, List.length_cons]
    rw [ih, Fin.sum_univ_succ]
    have hsum : ∑ i : Fin l.length,
          charVal ((c :: l).get (Fin.succ i)) * base ^ (l.length + 1 - 1 - ((Fin.succ i) : ℕ))
        = ∑ i : Fin l.length, charVal (l.get i) * base ^ (l.length - 1 - (i : ℕ)) := by
      refine Finset.sum_congr rfl fun i _ => ?_
      have h2 : l.length + 1 - 1 - ((Fin.succ i) : ℕ) = l.length - 1 - (i : ℕ) := by
        have := i.isLt
        simp only [Fin.val_succ]
        omega
      rw [h2]
      rfl
    rw [hsum]
    have h0 : charVal ((c :: l).get (0 : Fin (l.length + 1))) = charVal c := rfl
    have h1 : l.length + 1 - 1 - ((0 : Fin (l.length + 1)) : ℕ) = l.length := by simp
    rw [h0, h1]
    ring

/-! Claim theorems. -/

/-- Claim C10: `decodeBaseString` applied to the empty digit string returns 0
for every base, signalling no error. -/
theorem decode_empty_eq_zero (base : Int) : decodeBaseString "" base = 0 := rfl

/-- Claim C3 (code evaluated at the failing input): in base 2 the character
`2` has digit value 2 ≥ 2, yet `decodeBaseString` silently returns the integer
2 instead of signalling an `InvalidDigit` fault. -/
theorem decode_invalid_digit_value : decodeBaseString "2" 2 = 2 := by decide

/-- Claim C4: for a base in [2, 36] and a string of alphanumeric characters
whose digit values are all below the base, `decodeBaseString` returns the
exact positional value of the digit string, most significant first. -/
theorem decode_positional_value (s : String) (base : Int)
    (hbase : 2 ≤ base ∧ base ≤ 36)
    (hchars : ∀ ch ∈ s.data, ch.isAlphanum = true)
    (hvals : ∀ ch ∈ s.data, charVal ch < base) :
    decodeBaseString s base
      = ∑ i : Fin s.data.length,
          charVal (s.data.get i) * base ^ (s.data.length - 1 - (i : ℕ)) := by
  unfold decodeBaseString
  rw [horner_sum base s.data 0]
  simp

/-- Witness for C4: `decode("ff", 16) = 255`. -/
theorem decode_positional_value_witness :
    ((2 ≤ (16 : Int) ∧ (16 : Int) ≤ 36)
        ∧ (∀ ch ∈ "ff".data, ch.isAlphanum = true)
        ∧ (∀ ch ∈ "ff".data, charVal ch < 16))
      ∧ decodeBaseString "ff" 16 = 255 := by
  refine ⟨⟨by norm_num, by decide, by decide⟩, ?_⟩
  rw [decode_positional_value "ff" 16 ⟨by norm_num, by norm_num⟩ (by decide) (by decide)]
  decide

/-- Claim C6: for a prime modulus `p` and `1 ≤ d < p`, `modPow d (p-2) p` is
the modular multiplicative inverse of `d`. -/
theorem modPow_fermat_inverse (p : ℕ) (hp : p.Prime) (d : Int)
    (hd1 : 1 ≤ d) (hdp : d < (p : Int)) :
    (d * modPow d ((p : Int) - 2) (p : Int)) % (p : Int) = 1 := by
  haveI : Fact p.Prime := ⟨hp⟩
  have h2 : 2 ≤ p := hp.two_le
  have hd0 : (d : ZMod p) ≠ 0 := by
    intro h
    rw [ZMod.intCast_zmod_eq_zero_iff_dvd] at h
    have := Int.le_of_dvd (by omega) h
    omega
  have hcast : ((d * modPow d ((p : Int) - 2) (p : Int) : Int) : ZMod p)
      = ((1 : Int) : ZMod p) := by
    push_cast [modPow_cast]
    have hE : ((p : Int) - 2).toNat = p - 2 := by omega
    rw [hE, pow_card_sub_two hd0, mul_inv_cancel₀ hd0]
  rw [ZMod.intCast_eq_intCast_iff'] at hcast
  have h1p : (1 : Int) % (p : Int) = 1 := Int.emod_eq_of_lt (by omega) (by omega)
  rw [h1p] at hcast
  exact hcast

/-- Witness for C6 at `d = 2`, `p = 5`. -/
theorem modPow_fermat_inverse_witness :
    (Nat.Prime 5 ∧ 1 ≤ (2 : Int) ∧ (2 : Int) < 5)
      ∧ ((2 : Int) * modPow 2 ((5 : Int) - 2) 5) % 5 = 1 := by
  refine ⟨⟨by norm_num, by norm_num, by norm_num⟩, ?_⟩
  exact_mod_cast modPow_fermat_inverse 5 (by norm_num) 2 (by norm_num) (by exact_mod_cast by norm_num)

/-- Claim C8: a single point `(x, y)` reconstructs to exactly `y mod modulus`. -/
theorem lagrange_single_point (p : ℕ) (hp : p.Prime) (x y : Int)
    (hx : 0 < x) (hy : 0 ≤ y) :
    lagrangeInterpolation [(x, y)] (p : Int) = y % (p : Int) := by
  have h2 : 2 ≤ (p : Int) := by exact_mod_cast hp.two_le
  have hr1 : List.range 1 = [0] := rfl
  have hnum : innerNum [(x, y)] (p : Int) 0 = 1 := by
    simp [innerNum, hr1]
  have hden : innerDen [(x, y)] (p : Int) 0 = 1 := by
    simp [innerDen, hr1]
  have hterm : termAt [(x, y)] (p : Int) 0 = y % (p : Int) := by
    unfold termAt
    have hpt : (pointAt [(x, y)] 0).2 = y := rfl
    rw [hnum, hden, modPow_one h2, hpt, mul_one, mul_one,
      Int.tmod_eq_emod hy (by omega), tmod_emod_self (by omega), tmod_emod_self (by omega)]
  show (List.range 1).foldl _ 0 = y % (p : Int)
  rw [hr1]
  simp only [List.foldl_cons, List.foldl_nil, zero_add]
  rw [hterm, tmod_emod_self (by omega)]

/-- Witness for C8 at `(1, 7)` modulo 5. -/
theorem lagrange_single_point_witness :
    (Nat.Prime 5 ∧ 0 < (1 : Int) ∧ 0 ≤ (7 : Int))
      ∧ lagrangeInterpolation [((1 : Int), (7 : Int))] 5 = 2 := by
  refine ⟨⟨by norm_num, by norm_num, by norm_num⟩, ?_⟩
  have h := lagrange_single_point 5 (by norm_num) 1 7 (by norm_num) (by norm_num)
  norm_num at h
  exact_mod_cast h

/-- Claim C2 (code evaluated at the failing input): on the duplicate
x-coordinate list `[(1,0), (1,1)]` with prime modulus 5 the code returns the
value 0 instead of failing with a `DegenerateInterpolation` fault. -/
theorem lagrange_duplicate_x_returns_value :
    lagrangeInterpolation [((1 : Int), (0 : Int)), (1, 1)] 5 = 0 := by decide

/-- Counterexample to C5 as stated: the x-coordinates 3 and 7 are positive and
the y values non-negative, 5 is prime, yet the result is -2, outside
`[0, 5)`. -/
theorem lagrange_range_counterexample :
    (Nat.Prime 5 ∧ (0 : Int) < 3 ∧ (0 : Int) < 7 ∧ (0 : Int) ≤ 1 ∧ (0 : Int) ≤ 0)
      ∧ lagrangeInterpolation [((3 : Int), (1 : Int)), (7, 0)] 5 = -2 := by
  exact ⟨⟨by norm_num, by norm_num, by norm_num, by norm_num, by norm_num⟩, by decide⟩

/-- Claim C5 (amended): when every x-coordinate additionally lies below the
modulus, the result lies in `[0, modulus)`. -/
theorem lagrange_result_range (p : ℕ) (hp : p.Prime) (pts : List (Int × Int))
    (hne : pts ≠ [])
    (hx : ∀ pt ∈ pts, 0 < pt.1 ∧ pt.1 < (p : Int))
    (hy : ∀ pt ∈ pts, 0 ≤ pt.2) :
    0 ≤ lagrangeInterpolation pts (p : Int)
      ∧ lagrangeInterpolation pts (p : Int) < (p : Int) := by
  have h2 : 2 ≤ (p : Int) := by exact_mod_cast hp.two_le
  exact lagrangeInterpolation_bounds h2
    (fun pt hpt => ⟨(hx pt hpt).1.le, (hx pt hpt).2.le⟩) hy

/-- Witness for the amended C5 at `[(1, 2)]` modulo 5. -/
theorem lagrange_result_range_witness :
    (Nat.Prime 5 ∧ [((1 : Int), (2 : Int))] ≠ [])
      ∧ 0 ≤ lagrangeInterpolation [((1 : Int), (2 : Int))] 5
      ∧ lagrangeInterpolation [((1 : Int), (2 : Int))] 5 < 5 := by
  refine ⟨⟨by norm_num, by simp⟩, ?_⟩
  have h := lagrange_result_range 5 (by norm_num) [((1 : Int), (2 : Int))]
    (by simp) (by decide) (by decide)
  exact_mod_cast h

/-- Counterexample to C7 as stated: the lists are permutations of each other
with pairwise-distinct positive x-coordinates, 5 is prime, yet the two results
differ (1 versus -4). -/
theorem lagrange_perm_counterexample :
    (Nat.Prime 5
        ∧ List.Perm [((1 : Int), (1 : Int)), (3, 1), (7, 1)]
            [((7 : Int), (1 : Int)), (1, 1), (3, 1)]
        ∧ List.Pairwise (fun a b => a.1 ≠ b.1) [((1 : Int), (1 : Int)), (3, 1), (7, 1)])
      ∧ lagrangeInterpolation [((1 : Int), (1 : Int)), (3, 1), (7, 1)] 5 = 1
      ∧ lagrangeInterpolation [((7 : Int), (1 : Int)), (1, 1), (3, 1)] 5 = -4 := by
  exact ⟨⟨by norm_num, by decide, by decide⟩, by decide, by decide⟩

/-- Claim C7 (amended): permuting the points does not change the result, for
pairwise-distinct x-coordinates inside `[1, modulus)` and non-negative y. -/
theorem lagrange_perm_invariant (p : ℕ) (hp : p.Prime) (pts pts' : List (Int × Int))
    (hperm : pts.Perm pts')
    (hdist : pts.Pairwise (fun a b => a.1 ≠ b.1))
    (hx : ∀ pt ∈ pts, 0 < pt.1 ∧ pt.1 < (p : Int))
    (hy : ∀ pt ∈ pts, 0 ≤ pt.2) :
    lagrangeInterpolation pts' (p : Int) = lagrangeInterpolation pts (p : Int) := by
  have h2 : 2 ≤ (p : Int) := by exact_mod_cast hp.two_le
  have hnd : pts.Nodup := hdist.imp fun h hab => h (congrArg Prod.fst hab)
  have hnd' : pts'.Nodup := hperm.nodup hnd
  have hx' : ∀ pt ∈ pts', 0 < pt.1 ∧ pt.1 < (p : Int) :=
    fun pt hpt => hx pt (hperm.mem_iff.mpr hpt)
  have hy' : ∀ pt ∈ pts', 0 ≤ pt.2 := fun pt hpt => hy pt (hperm.mem_iff.mpr hpt)
  have hb := lagrangeInterpolation_bounds h2
    (fun pt hpt => ⟨(hx pt hpt).1.le, (hx pt hpt).2.le⟩) hy
  have hb' := lagrangeInterpolation_bounds h2
    (fun pt hpt => ⟨(hx' pt hpt).1.le, (hx' pt hpt).2.le⟩) hy'
  refine intCast_inj_of_range hb'.1 hb'.2 hb.1 hb.2 ?_
  rw [cast_lagrangeInterpolation_toFinset p hnd', cast_lagrangeInterpolation_toFinset p hnd,
    ← List.toFinset_eq_of_perm pts pts' hperm]

/-- Witness for the amended C7 at a two-point swap modulo 5. -/
theorem lagrange_perm_invariant_witness :
    (Nat.Prime 5
        ∧ List.Perm [((1 : Int), (2 : Int)), (2, 3)] [((2 : Int), (3 : Int)), (1, 2)])
      ∧ lagrangeInterpolation [((2 : Int), (3 : Int)), (1, 2)] 5
          = lagrangeInterpolation [((1 : Int), (2 : Int)), (2, 3)] 5 := by
  refine ⟨⟨by norm_num, by decide⟩, ?_⟩
  have h := lagrange_perm_invariant 5 (by norm_num) [((1 : Int), (2 : Int)), (2, 3)]
    [((2 : Int), (3 : Int)), (1, 2)] (by decide) (by decide) (by decide) (by decide)
  exact_mod_cast h

/-- Counterexample to C9 as stated: at the prime modulus 2 a zero denominator
yields `modPow 0 (2-2) 2 = 1`, not 0, and the corresponding term contributes
1, not 0. -/
theorem zero_denominator_counterexample :
    (Nat.Prime 2 ∧ innerDen [((1 : Int), (1 : Int)), (1, 1)] 2 0 = 0)
      ∧ modPow 0 ((2 : Int) - 2) 2 = 1
      ∧ termAt [((1 : Int), (1 : Int)), (1, 1)] 2 0 = 1 := by
  exact ⟨⟨by norm_num, by decide⟩, by decide, by decide⟩

/-- Claim C9 (amended): for a prime modulus greater than 2 the zero
denominator makes `modPow 0 (p-2) p` evaluate to 0, so every term whose
denominator is zero contributes 0 to the accumulated secret. -/
theorem zero_denominator_term_zero (p : ℕ) (hp : p.Prime) (hodd : 2 < p) :
    modPow 0 ((p : Int) - 2) (p : Int) = 0
      ∧ ∀ (pts : List (Int × Int)) (i : ℕ),
          innerDen pts (p : Int) i = 0 → termAt pts (p : Int) i = 0 := by
  have hpow : modPow 0 ((p : Int) - 2) (p : Int) = 0 := modPow_zero_of_pos (by omega)
  refine ⟨hpow, fun pts i hden => ?_⟩
  unfold termAt
  rw [hden, hpow, mul_zero, Int.zero_tmod]

/-- Witness for the amended C9 at `p = 5` on a duplicate-x list. -/
theorem zero_denominator_term_zero_witness :
    (Nat.Prime 5 ∧ 2 < 5 ∧ innerDen [((1 : Int), (0 : Int)), (1, 1)] 5 0 = 0)
      ∧ modPow 0 ((5 : Int) - 2) 5 = 0
      ∧ termAt [((1 : Int), (0 : Int)), (1, 1)] 5 0 = 0 := by
  have h := zero_denominator_term_zero 5 (by norm_num) (by norm_num)
  refine ⟨⟨by norm_num, by norm_num, by decide⟩, ?_, ?_⟩
  · exact_mod_cast h.1
  · have h2 := h.2 [((1 : Int), (0 : Int)), (1, 1)] 0 (by exact_mod_cast (by decide :
      innerDen [((1 : Int), (0 : Int)), (1, 1)] 5 0 = 0))
    exact_mod_cast h2

/-- Claim C1: round-trip — applying `lagrangeInterpolation` to `k` points of a
polynomial of degree at most `k-1` over `ZMod p`, with pairwise-distinct
x-coordinates in `[1, p)`, returns its constant term. -/
theorem lagrange_roundtrip (p : ℕ) (hp : p.Prime) (k : ℕ) (hk : 1 ≤ k)
    (f : Polynomial (ZMod p)) (hdeg : f.natDegree ≤ k - 1)
    (pts : List (Int × Int)) (hlen : pts.length = k)
    (hx : ∀ pt ∈ pts, 1 ≤ pt.1 ∧ pt.1 < (p : Int))
    (hy : ∀ pt ∈ pts, 0 ≤ pt.2)
    (hdist : pts.Pairwise (fun a b => a.1 ≠ b.1))
    (heval : ∀ pt ∈ pts, ((pt.2 : ZMod p)) = f.eval ((pt.1 : ZMod p))) :
    lagrangeInterpolation pts (p : Int) = ((f.coeff 0).val : Int) := by
  haveI : Fact p.Prime := ⟨hp⟩
  haveI : NeZero p := ⟨hp.pos.ne'⟩
  have h2 : 2 ≤ (p : Int) := by exact_mod_cast hp.two_le
  have hnd : pts.Nodup := hdist.imp fun h hab => h (congrArg Prod.fst hab)
  have hxy : ∀ pt ∈ pts, 0 ≤ pt.1 ∧ pt.1 ≤ (p : Int) := by
    intro pt hpt
    have := hx pt hpt
    omega
  have hinj : Set.InjOn (fun q : Int × Int => (q.1 : ZMod p)) pts.toFinset := by
    intro q1 hq1 q2 hq2 heq
    have hm1 : q1 ∈ pts := by simpa using hq1
    have hm2 : q2 ∈ pts := by simpa using hq2
    have hx1 := hx q1 hm1
    have hx2 := hx q2 hm2
    have hfst : q1.1 = q2.1 :=
      intCast_inj_of_range (by omega) hx1.2 (by omega) hx2.2 heq
    by_contra hne
    exact (hdist.forall (fun _ _ h => Ne.symm h) hm1 hm2 hne) hfst
  have hcard : pts.toFinset.card = k := by
    rw [List.toFinset_card_of_nodup hnd, hlen]
  have hdegree : f.degree < (pts.toFinset.card : WithBot ℕ) := by
    rw [hcard]
    rcases eq_or_ne f 0 with rfl | hf0
    · rw [Polynomial.degree_zero]
      exact_mod_cast WithBot.bot_lt_coe k
    · rw [Polynomial.degree_eq_natDegree hf0]
      exact_mod_cast (by omega : f.natDegree < k)
  have hevalq : ∀ q ∈ pts.toFinset, (q.2 : ZMod p) = f.eval (q.1 : ZMod p) :=
    fun q hq => heval q (List.mem_toFinset.mp hq)
  have hcast := cast_lagrangeInterpolation_toFinset p hnd
  rw [finsetForm_eq_coeff p hinj hdegree hevalq] at hcast
  have hb := lagrangeInterpolation_bounds h2 hxy hy
  refine intCast_inj_of_range hb.1 hb.2 (Int.natCast_nonneg _) ?_ ?_
  · exact_mod_cast ZMod.val_lt (f.coeff 0)
  · rw [hcast, Int.cast_natCast, ZMod.natCast_val, ZMod.cast_id]

/-- Witness for C1: the constant polynomial 3 over `ZMod 5`, one point. -/
theorem lagrange_roundtrip_witness :
    lagrangeInterpolation [((1 : Int), (3 : Int))] 5 = 3 := by
  have h := lagrange_roundtrip 5 (by norm_num) 1 (by norm_num)
    (Polynomial.C (3 : ZMod 5)) (by simp) [((1 : Int), (3 : Int))] rfl
    (by decide) (by decide) (by simp)
    (by
      intro pt hpt
      simp only [List.mem_singleton] at hpt
      subst hpt
      simp [Polynomial.eval_C])
  rw [Polynomial.coeff_C_zero] at h
  have hval : ((3 : ZMod 5)).val = 3 := by decide
  rw [hval] at h
  exact_mod_cast h

end ShamirSolver
